import Mathlib

/-!
Verification of the MarkdownLibRust markdown parser.

This file gives a shallow embedding of the two-stage parser:

* the block scanner `parse` / `parse_heading` from
  `src/markdownlib/src/markdown_parser.rs`, modelled over `List Char`
  (the Rust code consumes a `Peekable<Chars>` iterator, i.e. a stream of
  unicode characters, so `List Char` is a faithful representation), and
* the inline scanner `parse_inlines` from
  `src/markdownlib/src/model/inline.rs`.

The Rust inline scanner works on UTF-8 *bytes* and slices the input
string at byte index `i + 1` in its fallback branch; when the character
at scan position `i` occupies more than one byte, that index is not a
character boundary and the Rust program panics.  The embedding
`parse_inlines` therefore returns `Option`: `none` models this panic,
and every other step is expressed character-wise (all delimiters the
scanner searches for are single-byte ASCII characters, so byte search
and character search coincide on the remaining paths).

Machine integers: the heading level accumulator in `parse_heading` is a
`u8`, so the level is accumulated modulo 256 (`(lvl + 1) % 256`), which
is the defined wrap-around semantics of `u8` addition.
-/

namespace MarkdownLib

/-- Error carried by `Heading::new` for an invalid level (`HeadingLevelError(pub u8)`). -/
structure HeadingLevelError where
  level : Nat
  deriving DecidableEq, Repr

/-- A Markdown ATX heading: `Heading { level: u8, text: String }`. -/
structure Heading where
  level : Nat
  text : List Char
  deriving DecidableEq, Repr

/-- Inline elements: `Inline::Text`, `Inline::Link`, `Inline::Image`. -/
inductive Inline where
  | text (s : List Char) : Inline
  | link (text : List Inline) (url : List Char) (title : Option (List Char)) : Inline
  | image (alt : List Inline) (url : List Char) (title : Option (List Char)) : Inline
  deriving Repr

/-- A paragraph: `Paragraph { inlines: Vec<Inline> }`. -/
structure Paragraph where
  inlines : List Inline
  deriving Repr

/-- Block elements: `Block::Heading` and `Block::Paragraph`. -/
inductive Block where
  | heading (h : Heading) : Block
  | paragraph (p : Paragraph) : Block
  deriving Repr

/-- The document is an ordered sequence of blocks, grown only by `push`
(appending at the end), so it is modelled as a `List Block`. -/
abbrev Document := List Block

/-- Parse error: `MarkdownParseError { message, line, column }`. -/
structure MarkdownParseError where
  message : List Char
  line : Nat
  column : Nat
  deriving DecidableEq, Repr

/-- Rust's `char::is_whitespace`: the Unicode `White_Space` property. -/
def rustIsWhitespace (c : Char) : Bool :=
  let n := c.toNat
  (0x09 ≤ n && n ≤ 0x0D) || n = 0x20 || n = 0x85 || n = 0xA0 || n = 0x1680 ||
  (0x2000 ≤ n && n ≤ 0x200A) || n = 0x2028 || n = 0x2029 || n = 0x202F ||
  n = 0x205F || n = 0x3000

/-- Rust's `str::trim`: strip leading and trailing whitespace characters. -/
def trimChars (s : List Char) : List Char :=
  ((s.dropWhile rustIsWhitespace).reverse.dropWhile rustIsWhitespace).reverse

/-- Constructor `Heading::new(level, text)`: validates `(1..=6).contains(&lvl)`,
otherwise returns `HeadingLevelError(lvl)`.  The `level` argument stands for
the `u8` value obtained at the call site. -/
def Heading.new (level : Nat) (text : List Char) : Except HeadingLevelError Heading :=
  if 1 ≤ level ∧ level ≤ 6 then .ok ⟨level, text⟩ else .error ⟨level⟩

/-- The level-counting loop of `parse_heading`:
`while let Some('#') = characters.next() { level += 1; }`.
It consumes characters while they are `'#'`, incrementing the `u8` level
(modulo 256); the first non-`'#'` character, when present, is also consumed
by `next()` and discarded.  Returns the final level and the remaining input. -/
def countHashes : List Char → Nat → Nat × List Char
  | [], lvl => (lvl, [])
  | c :: rest, lvl =>
    if c = '#' then countHashes rest ((lvl + 1) % 256) else (lvl, rest)

/-- The title-reading loop of `parse_heading`: peeks characters, stopping at
(and consuming) the first line break, or at end of input; every other
character is appended to the title.  Returns the title and remaining input. -/
def readTitle : List Char → List Char × List Char
  | [] => ([], [])
  | c :: rest =>
    if c = '\n' then ([], rest)
    else
      let r := readTitle rest
      (c :: r.1, r.2)

/-- Message of the parse error produced for a `HeadingLevelError`:
`format!("Invalid heading level: {}", e.0)`. -/
def invalidMsg (n : Nat) : List Char :=
  "Invalid heading level: ".data ++ (Nat.repr n).data

/-- The heading recognizer `parse_heading(characters, line_number)`.  The
first component is the `Result<Heading, MarkdownParseError>`; the second is
the state of the character iterator after the call (the iterator is a
mutable argument in Rust). -/
def parse_heading (cs : List Char) (line : Nat) :
    Except MarkdownParseError Heading × List Char :=
  let p := countHashes cs 0
  let q := readTitle p.2
  (match Heading.new p.1 (trimChars q.1) with
   | .ok h => .ok h
   | .error e => .error ⟨invalidMsg e.level, line, 1⟩, q.2)

theorem countHashes_length_le (cs : List Char) (lvl : Nat) :
    (countHashes cs lvl).2.length ≤ cs.length := by
  induction cs generalizing lvl with
  | nil => simp [countHashes]
  | cons c rest ih =>
    simp only [countHashes]
    split
    · exact Nat.le_trans (ih _) (Nat.le_succ _)
    · exact Nat.le_succ _

theorem readTitle_length_le (cs : List Char) :
    (readTitle cs).2.length ≤ cs.length := by
  induction cs with
  | nil => simp [readTitle]
  | cons c rest ih =>
    simp only [readTitle]
    split
    · exact Nat.le_succ _
    · exact Nat.le_trans ih (Nat.le_succ _)

theorem parse_heading_progress (c : Char) (rest : List Char) (ln : Nat) :
    (parse_heading (c :: rest) ln).2.length ≤ rest.length := by
  have h1 : (countHashes (c :: rest) 0).2.length ≤ rest.length := by
    simp only [countHashes]
    split
    · exact countHashes_length_le rest 1
    · exact Nat.le_refl _
  calc (parse_heading (c :: rest) ln).2.length
      = (readTitle (countHashes (c :: rest) 0).2).2.length := rfl
    _ ≤ (countHashes (c :: rest) 0).2.length := readTitle_length_le _
    _ ≤ rest.length := h1

/-- The states of the block scanner (`enum ParseState`). -/
inductive ParseState where
  | start
  | heading
  | paragraph
  | paragraphEndCandidate
  deriving DecidableEq, Repr

/-- Rank used only for the termination measure of `parseLoop`: the two
transitions that do not consume a character (`Start → Paragraph` and
`Paragraph → Heading`) strictly decrease the rank. -/
def ParseState.rank : ParseState → Nat
  | .heading => 0
  | .paragraph => 1
  | .start => 2
  | .paragraphEndCandidate => 3

/-- The main loop of `parse`: `while let Some(next_c) = characters.peek()`.
Arguments mirror the local mutable state of `parse`: the current state,
`paragraph_text` (`pt`), `paragraph_end_candidate_text` (`ct`), the document
built so far (`acc`), `line_number` (`ln`), and the character iterator.

On each iteration the line counter is incremented when the peeked character
is a line break (this happens before any state handling, so iterations that
do not consume the character can count the same line break twice, exactly as
in the source).  When input is exhausted, a non-empty `paragraph_text` is
flushed as a trailing paragraph. -/
def parseLoop (st : ParseState) (pt ct : List Char) (acc : List Block)
    (ln : Nat) (input : List Char) : Except MarkdownParseError Document :=
  match input with
  | [] => .ok (acc ++ if pt = [] then [] else [.paragraph ⟨[.text pt]⟩])
  | c :: rest =>
    let ln' := if c = '\n' then ln + 1 else ln
    match st with
    | .start => parseLoop .paragraph pt ct acc ln' (c :: rest)
    | .heading =>
      let r := parse_heading (c :: rest) ln'
      match r.1 with
      | .error e => .error e
      | .ok h => parseLoop .paragraph pt ct (acc ++ [.heading h]) (ln' + 1) r.2
    | .paragraph =>
      if c = '#' then
        parseLoop .heading pt ct acc ln' (c :: rest)
      else if c = '\n' then
        parseLoop .paragraphEndCandidate pt (ct ++ [c]) acc ln' rest
      else
        parseLoop .paragraph (pt ++ [c]) ct acc ln' rest
    | .paragraphEndCandidate =>
      if c = '\n' then
        parseLoop .paragraph [] [] (acc ++ [.paragraph ⟨[.text pt]⟩]) ln' rest
      else if rustIsWhitespace c then
        parseLoop .paragraphEndCandidate pt (ct ++ [c]) acc ln' rest
      else
        parseLoop .paragraph (pt ++ ct ++ [c]) [] acc ln' rest
  termination_by (input.length, st.rank)
  decreasing_by
  · exact Prod.Lex.right _ (by decide)
  · exact Prod.Lex.left _ _
      (Nat.lt_succ_of_le (parse_heading_progress c rest ln'))
  · exact Prod.Lex.right _ (by decide)
  · exact Prod.Lex.left _ _ (Nat.lt_succ_self _)
  · exact Prod.Lex.left _ _ (Nat.lt_succ_self _)
  · exact Prod.Lex.left _ _ (Nat.lt_succ_self _)
  · exact Prod.Lex.left _ _ (Nat.lt_succ_self _)
  · exact Prod.Lex.left _ _ (Nat.lt_succ_self _)

/-- The entry point `parse(input) -> Result<Document, MarkdownParseError>`:
runs the block scanner from state `Start` with empty buffers, an empty
document and `line_number = 1`. -/
def parse (input : List Char) : Except MarkdownParseError Document :=
  parseLoop .start [] [] [] 1 input

/-- The url/title split of `parse_inlines` on the parenthesized content
`inside`: `inside.find(' ')` finds the first space; if there is none, the
whole content is the url and there is no title (`(inside.to_string(), None)`).
Otherwise `split_at(space_pos)` yields the url (the part before the first
space) and the remainder starting at that space; the remainder is
`trim_start`-ed and becomes the title (with the surrounding quotes stripped)
exactly when it starts and ends with `'"'` and has length at least 2;
otherwise no title is recorded and the remainder is dropped. -/
def splitInside (inside : List Char) : List Char × Option (List Char) :=
  match inside.dropWhile (· ≠ ' ') with
  | [] => (inside, none)
  | _ :: _ =>
    let u := inside.takeWhile (· ≠ ' ')
    let r := (inside.dropWhile (· ≠ ' ')).dropWhile rustIsWhitespace
    let title :=
      if r.head? = some '"' ∧ r.getLast? = some '"' ∧ 2 ≤ r.length then
        some (r.drop 1).dropLast
      else none
    (u, title)

/-- The opener-matching branch of `parse_inlines`, entered when the current
character is `'!'` or `'['`: require a `'['` (immediately after the `'!'`
for an image), locate the next `']'`, require an immediately following
`'('`, locate the next `')'`.  On a full match, return the produced
`Link`/`Image` inline (label as a single `Text`, url/title via
`splitInside`) together with the input remaining after the closing `')'`;
on any missing delimiter return `none` (the caller falls back to plain
text). -/
def tryMatch (s : List Char) : Option (Inline × List Char) :=
  match s with
  | [] => none
  | c :: rest =>
    let isImage := c = '!'
    let brkt := if isImage then rest else c :: rest
    if brkt.head? = some '[' then
      let afterBracket := brkt.tail
      let afterLab := afterBracket.dropWhile (· ≠ ']')
      if afterLab.head? = some ']' ∧ afterLab.tail.head? = some '(' then
        let after3 := afterLab.tail.tail
        let afterInside := after3.dropWhile (· ≠ ')')
        if afterInside.head? = some ')' then
          let label := afterBracket.takeWhile (· ≠ ']')
          let inside := after3.takeWhile (· ≠ ')')
          let ut := splitInside inside
          some (if isImage then .image [.text label] ut.1 ut.2
                else .link [.text label] ut.1 ut.2, afterInside.tail)
        else none
      else none
    else none

theorem dropWhile_length_le (p : Char → Bool) (l : List Char) :
    (l.dropWhile p).length ≤ l.length := by
  induction l with
  | nil => simp
  | cons c rest ih =>
    simp only [List.dropWhile]
    split
    · exact Nat.le_trans ih (Nat.le_succ _)
    · exact Nat.le_refl _

theorem matchSuffix_length_le (l : List Char) :
    ((((l.dropWhile (· ≠ ']')).tail.tail).dropWhile (· ≠ ')')).tail).length ≤ l.length := by
  have e2 := dropWhile_length_le (· ≠ ']') l
  have e4 := dropWhile_length_le (· ≠ ')') (l.dropWhile (· ≠ ']')).tail.tail
  simp only [List.length_tail] at *
  omega

theorem tryMatch_progress (s : List Char) (inl : Inline) (rem : List Char)
    (h : tryMatch s = some (inl, rem)) : rem.length < s.length := by
  match s with
  | [] => simp [tryMatch] at h
  | c :: rest =>
    simp only [tryMatch] at h
    by_cases hc : c = '!'
    · simp only [if_pos hc] at h
      split at h
      rotate_left
      · exact absurd h (by simp)
      split at h
      rotate_left
      · exact absurd h (by simp)
      split at h
      rotate_left
      · exact absurd h (by simp)
      next h1 h2 h3 =>
            simp only [Option.some.injEq, Prod.mk.injEq] at h
            obtain ⟨-, hrem⟩ := h
            subst hrem
            have := matchSuffix_length_le rest.tail
            simp only [List.length_cons, List.length_tail] at *
            omega
    · simp only [if_neg hc, List.tail_cons] at h
      split at h
      rotate_left
      · exact absurd h (by simp)
      split at h
      rotate_left
      · exact absurd h (by simp)
      split at h
      rotate_left
      · exact absurd h (by simp)
      next h1 h2 h3 =>
            simp only [Option.some.injEq, Prod.mk.injEq] at h
            obtain ⟨-, hrem⟩ := h
            subst hrem
            have := matchSuffix_length_le rest
            simp only [List.length_cons, List.length_tail] at *
            omega

/-- The inline scanner `parse_inlines(input) -> Vec<Inline>`.  At each scan
position: if the character is `'!'` or `'['`, attempt a full link/image
match (`tryMatch`); on success emit the inline and resume right after the
closing `')'`.  Otherwise emit a `Text` element spanning from the current
position up to (excluding) the next `'!'` or `'['`, or the end of input.

Rust slices the string at byte index `i + 1` to search for the next special
character; when the current character occupies more than one UTF-8 byte this
index is not a character boundary and the program panics, which is modelled
by returning `none`. -/
def parse_inlines (input : List Char) : Option (List Inline) :=
  match input with
  | [] => some []
  | c :: rest =>
    if c = '!' ∨ c = '[' then
      match hm : tryMatch (c :: rest) with
      | some (inl, rem) => (parse_inlines rem).map (inl :: ·)
      | none =>
        (parse_inlines (rest.dropWhile (fun x => ¬(x = '!' ∨ x = '[')))).map
          ((.text (c :: rest.takeWhile (fun x => ¬(x = '!' ∨ x = '[')))) :: ·)
    else if c.utf8Size ≠ 1 then
      none
    else
      (parse_inlines (rest.dropWhile (fun x => ¬(x = '!' ∨ x = '[')))).map
        ((.text (c :: rest.takeWhile (fun x => ¬(x = '!' ∨ x = '[')))) :: ·)
  termination_by input.length
  decreasing_by
  · exact tryMatch_progress _ _ _ hm
  · exact Nat.lt_succ_of_le (dropWhile_length_le _ rest)
  · exact Nat.lt_succ_of_le (dropWhile_length_le _ rest)

instance instDecEqExcept {ε α : Type} [DecidableEq ε] [DecidableEq α] :
    DecidableEq (Except ε α)
  | .error a, .error b =>
    if h : a = b then .isTrue (by rw [h]) else .isFalse (by intro hx; cases hx; exact h rfl)
  | .error a, .ok b => .isFalse (by intro hx; cases hx)
  | .ok a, .error b => .isFalse (by intro hx; cases hx)
  | .ok a, .ok b =>
    if h : a = b then .isTrue (by rw [h]) else .isFalse (by intro hx; cases hx; exact h rfl)

/-- Constructor `Paragraph::new(text)`: the whole input as one `Text` inline. -/
def Paragraph.new (text : List Char) : Paragraph :=
  ⟨[.text text]⟩

/-- Constructor `Paragraph::parse(raw)`: `Paragraph { inlines: parse_inlines(raw) }`
(`none` when `parse_inlines` panics). -/
def Paragraph.parse (raw : List Char) : Option Paragraph :=
  (parse_inlines raw).map (⟨·⟩)

/-! Single-step unfolding lemmas for `parseLoop` and `parse_inlines`.  These
restate each branch of the definitions as a rewrite rule, which is convenient
both for evaluating the parser on concrete inputs and for the inductive
proofs below. -/

theorem parseLoop_nil (st : ParseState) (pt ct : List Char) (acc : List Block) (ln : Nat) :
    parseLoop st pt ct acc ln [] =
      .ok (acc ++ if pt = [] then [] else [.paragraph ⟨[.text pt]⟩]) := by
  rw [parseLoop]

theorem parseLoop_start (pt ct : List Char) (acc : List Block) (ln : Nat)
    (c : Char) (rest : List Char) :
    parseLoop .start pt ct acc ln (c :: rest) =
      parseLoop .paragraph pt ct acc (if c = '\n' then ln + 1 else ln) (c :: rest) := by
  rw [parseLoop]

theorem parseLoop_para_hash (pt ct : List Char) (acc : List Block) (ln : Nat)
    (rest : List Char) :
    parseLoop .paragraph pt ct acc ln ('#' :: rest) =
      parseLoop .heading pt ct acc ln ('#' :: rest) := by
  conv_lhs => rw [parseLoop]
  simp

theorem parseLoop_para_nl (pt ct : List Char) (acc : List Block) (ln : Nat)
    (rest : List Char) :
    parseLoop .paragraph pt ct acc ln ('\n' :: rest) =
      parseLoop .paragraphEndCandidate pt (ct ++ ['\n']) acc (ln + 1) rest := by
  rw [parseLoop]
  simp

theorem parseLoop_para_other (pt ct : List Char) (acc : List Block) (ln : Nat)
    (c : Char) (rest : List Char) (hh : c ≠ '#') (hn : c ≠ '\n') :
    parseLoop .paragraph pt ct acc ln (c :: rest) =
      parseLoop .paragraph (pt ++ [c]) ct acc ln rest := by
  rw [parseLoop]
  simp [hh, hn]

theorem parseLoop_heading (pt ct : List Char) (acc : List Block) (ln : Nat)
    (c : Char) (rest : List Char) :
    parseLoop .heading pt ct acc ln (c :: rest) =
      (let ln' := if c = '\n' then ln + 1 else ln
       let r := parse_heading (c :: rest) ln'
       match r.1 with
       | .error e => .error e
       | .ok h => parseLoop .paragraph pt ct (acc ++ [.heading h]) (ln' + 1) r.2) := by
  rw [parseLoop]

theorem parseLoop_para_heading_ok (pt ct : List Char) (acc : List Block) (ln : Nat)
    (rest : List Char) (h : Heading) (rem : List Char)
    (hph : parse_heading ('#' :: rest) ln = (.ok h, rem)) :
    parseLoop .paragraph pt ct acc ln ('#' :: rest) =
      parseLoop .paragraph pt ct (acc ++ [.heading h]) (ln + 1) rem := by
  rw [parseLoop_para_hash, parseLoop_heading]
  simp only [show (if '#' = '\n' then ln + 1 else ln) = ln from if_neg (by decide), hph]

theorem parseLoop_para_heading_err (pt ct : List Char) (acc : List Block) (ln : Nat)
    (rest : List Char) (e : MarkdownParseError) (rem : List Char)
    (hph : parse_heading ('#' :: rest) ln = (.error e, rem)) :
    parseLoop .paragraph pt ct acc ln ('#' :: rest) = .error e := by
  rw [parseLoop_para_hash, parseLoop_heading]
  simp only [show (if '#' = '\n' then ln + 1 else ln) = ln from if_neg (by decide), hph]

theorem parseLoop_cand_nl (pt ct : List Char) (acc : List Block) (ln : Nat)
    (rest : List Char) :
    parseLoop .paragraphEndCandidate pt ct acc ln ('\n' :: rest) =
      parseLoop .paragraph [] [] (acc ++ [.paragraph ⟨[.text pt]⟩]) (ln + 1) rest := by
  rw [parseLoop]
  simp

theorem parseLoop_cand_ws (pt ct : List Char) (acc : List Block) (ln : Nat)
    (c : Char) (rest : List Char) (hn : c ≠ '\n') (hw : rustIsWhitespace c) :
    parseLoop .paragraphEndCandidate pt ct acc ln (c :: rest) =
      parseLoop .paragraphEndCandidate pt (ct ++ [c]) acc ln rest := by
  rw [parseLoop]
  simp [hn, hw]

theorem parseLoop_cand_other (pt ct : List Char) (acc : List Block) (ln : Nat)
    (c : Char) (rest : List Char) (hn : c ≠ '\n') (hw : ¬ rustIsWhitespace c) :
    parseLoop .paragraphEndCandidate pt ct acc ln (c :: rest) =
      parseLoop .paragraph (pt ++ ct ++ [c]) [] acc ln rest := by
  rw [parseLoop]
  simp [hn, hw]

theorem parse_inlines_nil : parse_inlines [] = some [] := by
  rw [parse_inlines]

theorem parse_inlines_match (c : Char) (rest : List Char) (inl : Inline) (rem : List Char)
    (hc : c = '!' ∨ c = '[') (hm : tryMatch (c :: rest) = some (inl, rem)) :
    parse_inlines (c :: rest) = (parse_inlines rem).map (inl :: ·) := by
  rw [parse_inlines.eq_def]
  simp only [if_pos hc]
  split
  · rename_i inl2 rem2 heq
    rw [hm] at heq
    simp only [Option.some.injEq, Prod.mk.injEq] at heq
    rw [heq.1, heq.2]
  · rename_i heq
    rw [hm] at heq
    exact absurd heq (by simp)

theorem parse_inlines_nomatch (c : Char) (rest : List Char)
    (hc : c = '!' ∨ c = '[') (hm : tryMatch (c :: rest) = none) :
    parse_inlines (c :: rest) =
      (parse_inlines (rest.dropWhile (fun x => ¬(x = '!' ∨ x = '[')))).map
        ((.text (c :: rest.takeWhile (fun x => ¬(x = '!' ∨ x = '[')))) :: ·) := by
  rw [parse_inlines.eq_def]
  simp only [if_pos hc]
  split
  · rename_i inl2 rem2 heq
    rw [hm] at heq
    exact absurd heq (by simp)
  · rfl

theorem parse_inlines_text (c : Char) (rest : List Char)
    (hc : ¬(c = '!' ∨ c = '[')) (hsz : c.utf8Size = 1) :
    parse_inlines (c :: rest) =
      (parse_inlines (rest.dropWhile (fun x => ¬(x = '!' ∨ x = '[')))).map
        ((.text (c :: rest.takeWhile (fun x => ¬(x = '!' ∨ x = '[')))) :: ·) := by
  rw [parse_inlines.eq_def]
  simp [hc, hsz]

theorem parse_inlines_panic (c : Char) (rest : List Char)
    (hc : ¬(c = '!' ∨ c = '[')) (hsz : c.utf8Size ≠ 1) :
    parse_inlines (c :: rest) = none := by
  rw [parse_inlines.eq_def]
  simp [hc, hsz]

/-! Shape of parse errors: the only error path of the whole block scanner is
an invalid heading level reported by `parse_heading`. -/

theorem parse_heading_error_shape (cs : List Char) (ln : Nat) (e : MarkdownParseError)
    (h : (parse_heading cs ln).1 = .error e) :
    e.column = 1 ∧ e.line = ln ∧ ∃ n, ¬(1 ≤ n ∧ n ≤ 6) ∧ e.message = invalidMsg n := by
  unfold parse_heading at h
  simp only at h
  split at h
  · exact absurd h (by simp)
  · rename_i e2 heq
    simp only [Except.error.injEq] at h
    subst h
    unfold Heading.new at heq
    split at heq
    · exact absurd heq (by simp)
    · rename_i hcond
      simp only [Except.error.injEq] at heq
      subst heq
      exact ⟨rfl, rfl, _, hcond, rfl⟩

theorem parseLoop_error_shape (st : ParseState) (pt ct : List Char) (acc : List Block)
    (ln : Nat) (input : List Char) (e : MarkdownParseError)
    (h : parseLoop st pt ct acc ln input = .error e) :
    e.column = 1 ∧ ∃ n, ¬(1 ≤ n ∧ n ≤ 6) ∧ e.message = invalidMsg n := by
  induction st, pt, ct, acc, ln, input using parseLoop.induct with
  | case1 st pt ct acc ln =>
    rw [parseLoop_nil] at h
    exact absurd h (by simp)
  | case2 pt ct acc ln c rest ln' ih =>
    rw [parseLoop_start] at h
    exact ih h
  | case3 pt ct acc ln c rest ln' r e2 hx =>
    have hx2 : (parse_heading (c :: rest) (if c = '\n' then ln + 1 else ln)).1 = .error e2 := hx
    rw [parseLoop_heading] at h
    simp only [hx2, Except.error.injEq] at h
    subst h
    have := parse_heading_error_shape (c :: rest) _ e2 hx2
    exact ⟨this.1, this.2.2⟩
  | case4 pt ct acc ln c rest ln' r hd hx ih =>
    have hx2 : (parse_heading (c :: rest) (if c = '\n' then ln + 1 else ln)).1 = .ok hd := hx
    rw [parseLoop_heading] at h
    simp only [hx2] at h
    exact ih h
  | case5 pt ct acc ln rest ln' ih =>
    rw [parseLoop_para_hash] at h
    exact ih h
  | case6 pt ct acc ln rest ln' hne ih =>
    rw [parseLoop_para_nl] at h
    exact ih h
  | case7 pt ct acc ln c rest ln' hne hnn ih =>
    rw [parseLoop_para_other pt ct acc ln c rest hne hnn] at h
    unfold ln' at ih
    simp only [dif_neg hnn] at ih
    exact ih h
  | case8 pt ct acc ln rest ln' ih =>
    rw [parseLoop_cand_nl] at h
    exact ih h
  | case9 pt ct acc ln c rest ln' hnn hw ih =>
    rw [parseLoop_cand_ws pt ct acc ln c rest hnn hw] at h
    unfold ln' at ih
    simp only [dif_neg hnn] at ih
    exact ih h
  | case10 pt ct acc ln c rest ln' hnn hw ih =>
    rw [parseLoop_cand_other pt ct acc ln c rest hnn hw] at h
    unfold ln' at ih
    simp only [dif_neg hnn] at ih
    exact ih h

/-! Shape of the paragraphs produced by the block scanner: every paragraph
block pushed by `parse` has a single `Text` inline holding the accumulated
paragraph text (the block scanner never invokes the inline scanner). -/

theorem parseLoop_ok_shape (st : ParseState) (pt ct : List Char) (acc : List Block)
    (ln : Nat) (input : List Char) (doc : Document)
    (hacc : ∀ p, Block.paragraph p ∈ acc → ∃ t, p.inlines = [Inline.text t])
    (h : parseLoop st pt ct acc ln input = .ok doc) :
    ∀ p, Block.paragraph p ∈ doc → ∃ t, p.inlines = [Inline.text t] := by
  induction st, pt, ct, acc, ln, input using parseLoop.induct with
  | case1 st pt ct acc ln =>
    rw [parseLoop_nil] at h
    simp only [Except.ok.injEq] at h
    subst h
    intro p hp
    rcases List.mem_append.1 hp with hp | hp
    · exact hacc p hp
    · split at hp
      · simp at hp
      · simp only [List.mem_singleton] at hp
        cases hp
        exact ⟨pt, rfl⟩
  | case2 pt ct acc ln c rest ln' ih =>
    rw [parseLoop_start] at h
    exact ih hacc h
  | case3 pt ct acc ln c rest ln' r e2 hx =>
    have hx2 : (parse_heading (c :: rest) (if c = '\n' then ln + 1 else ln)).1 = .error e2 := hx
    rw [parseLoop_heading] at h
    simp only [hx2] at h
    exact absurd h (by simp)
  | case4 pt ct acc ln c rest ln' r hd hx ih =>
    have hx2 : (parse_heading (c :: rest) (if c = '\n' then ln + 1 else ln)).1 = .ok hd := hx
    rw [parseLoop_heading] at h
    simp only [hx2] at h
    refine ih ?_ h
    intro p hp
    rcases List.mem_append.1 hp with hp | hp
    · exact hacc p hp
    · simp at hp
  | case5 pt ct acc ln rest ln' ih =>
    rw [parseLoop_para_hash] at h
    exact ih hacc h
  | case6 pt ct acc ln rest ln' hne ih =>
    rw [parseLoop_para_nl] at h
    exact ih hacc h
  | case7 pt ct acc ln c rest ln' hne hnn ih =>
    rw [parseLoop_para_other pt ct acc ln c rest hne hnn] at h
    unfold ln' at ih
    simp only [dif_neg hnn] at ih
    exact ih hacc h
  | case8 pt ct acc ln rest ln' ih =>
    rw [parseLoop_cand_nl] at h
    refine ih ?_ h
    intro p hp
    rcases List.mem_append.1 hp with hp | hp
    · exact hacc p hp
    · simp only [List.mem_singleton] at hp
      cases hp
      exact ⟨pt, rfl⟩
  | case9 pt ct acc ln c rest ln' hnn hw ih =>
    rw [parseLoop_cand_ws pt ct acc ln c rest hnn hw] at h
    unfold ln' at ih
    simp only [dif_neg hnn] at ih
    exact ih hacc h
  | case10 pt ct acc ln c rest ln' hnn hw ih =>
    rw [parseLoop_cand_other pt ct acc ln c rest hnn hw] at h
    unfold ln' at ih
    simp only [dif_neg hnn] at ih
    exact ih hacc h

/-! Accumulation: in state `Paragraph`, a run of ordinary characters (no
line break, no `'#'`) is appended to the paragraph text buffer one by one. -/

theorem parseLoop_para_accum (a : List Char) (ha : ∀ c ∈ a, c ≠ '\n' ∧ c ≠ '#')
    (pt ct : List Char) (acc : List Block) (ln : Nat) (rest : List Char) :
    parseLoop .paragraph pt ct acc ln (a ++ rest) =
      parseLoop .paragraph (pt ++ a) ct acc ln rest := by
  induction a generalizing pt with
  | nil => simp
  | cons c a ih =>
    have hc := ha c (List.mem_cons_self c a)
    rw [List.cons_append, parseLoop_para_other pt ct acc ln c (a ++ rest) hc.2 hc.1,
      ih (fun x hx => ha x (List.mem_cons_of_mem c hx)) (pt ++ [c])]
    simp

/-! Closed forms for the two loops of `parse_heading` and for
`parse_heading` itself on an input that starts with a run of `'#'`. -/

theorem countHashes_eq (k : Nat) (rest : List Char) (lvl : Nat) (hlvl : lvl < 256)
    (hrest : rest.head? ≠ some '#') :
    countHashes (List.replicate k '#' ++ rest) lvl = ((lvl + k) % 256, rest.drop 1) := by
  induction k generalizing lvl with
  | zero =>
    match rest, hrest with
    | [], _ => simp [countHashes, Nat.mod_eq_of_lt hlvl]
    | c :: t, hrest =>
      have hc : c ≠ '#' := by
        intro hc
        exact hrest (by rw [hc]; rfl)
      simp [countHashes, hc, Nat.mod_eq_of_lt hlvl]
  | succ k ih =>
    have hstep : countHashes (List.replicate (k + 1) '#' ++ rest) lvl
        = countHashes (List.replicate k '#' ++ rest) ((lvl + 1) % 256) := by
      rw [List.replicate_succ, List.cons_append, countHashes]
      simp
    rw [hstep, ih _ (Nat.mod_lt _ (by omega))]
    have harith : ((lvl + 1) % 256 + k) % 256 = (lvl + (k + 1)) % 256 := by
      conv_rhs => rw [show lvl + (k + 1) = lvl + 1 + k by omega]
      rw [Nat.mod_add_mod]
    rw [harith]

theorem readTitle_eq (xs : List Char) :
    readTitle xs = (xs.takeWhile (· ≠ '\n'), (xs.dropWhile (· ≠ '\n')).drop 1) := by
  induction xs with
  | nil => simp [readTitle]
  | cons c t ih =>
    by_cases hc : c = '\n'
    · subst hc
      simp [readTitle, List.takeWhile_cons, List.dropWhile_cons]
    · rw [readTitle]
      simp only [if_neg hc, ih, List.takeWhile_cons, List.dropWhile_cons]
      simp [hc]

theorem parse_heading_eq (k : Nat) (rest : List Char) (ln : Nat)
    (hrest : rest.head? ≠ some '#') :
    parse_heading (List.replicate k '#' ++ rest) ln =
      (match Heading.new (k % 256) (trimChars ((rest.drop 1).takeWhile (· ≠ '\n'))) with
       | .ok h => .ok h
       | .error e => .error ⟨invalidMsg e.level, ln, 1⟩,
       (((rest.drop 1).dropWhile (· ≠ '\n')).drop 1)) := by
  unfold parse_heading
  rw [countHashes_eq k rest 0 (by omega) hrest]
  simp only [readTitle_eq, Nat.zero_add]

theorem parse_heading_eq_ok (k : Nat) (rest : List Char) (ln : Nat)
    (hk1 : 1 ≤ k) (hk6 : k ≤ 6) (hrest : rest.head? ≠ some '#') :
    parse_heading (List.replicate k '#' ++ rest) ln =
      (.ok ⟨k, trimChars ((rest.drop 1).takeWhile (· ≠ '\n'))⟩,
       (((rest.drop 1).dropWhile (· ≠ '\n')).drop 1)) := by
  rw [parse_heading_eq k rest ln hrest]
  have hmod : k % 256 = k := Nat.mod_eq_of_lt (by omega)
  rw [hmod]
  rw [Heading.new, if_pos ⟨hk1, hk6⟩]

theorem parse_heading_eq_err (k : Nat) (rest : List Char) (ln : Nat)
    (hk : ¬(1 ≤ k % 256 ∧ k % 256 ≤ 6)) (hrest : rest.head? ≠ some '#') :
    parse_heading (List.replicate k '#' ++ rest) ln =
      (.error ⟨invalidMsg (k % 256), ln, 1⟩,
       (((rest.drop 1).dropWhile (· ≠ '\n')).drop 1)) := by
  rw [parse_heading_eq k rest ln hrest]
  rw [Heading.new, if_neg hk]

/-! Small list facts used to split a paragraph tail into its whitespace
run and the first non-whitespace character. -/

theorem mem_of_mem_takeWhile {p : Char → Bool} {l : List Char} {c : Char}
    (h : c ∈ l.takeWhile p) : c ∈ l ∧ p c = true := by
  induction l with
  | nil => simp [List.takeWhile] at h
  | cons x xs ih =>
    rw [List.takeWhile_cons] at h
    by_cases hx : p x
    · rw [if_pos hx] at h
      rcases List.mem_cons.1 h with h | h
      · exact ⟨by rw [h]; exact List.mem_cons_self x xs, by rw [h]; exact hx⟩
      · exact ⟨List.mem_cons_of_mem x (ih h).1, (ih h).2⟩
    · rw [if_neg hx] at h
      simp at h

theorem mem_of_mem_dropWhile {p : Char → Bool} {l : List Char} {c : Char}
    (h : c ∈ l.dropWhile p) : c ∈ l := by
  induction l with
  | nil => simp [List.dropWhile] at h
  | cons x xs ih =>
    rw [List.dropWhile_cons] at h
    by_cases hx : p x
    · rw [if_pos hx] at h
      exact List.mem_cons_of_mem x (ih h)
    · rw [if_neg hx] at h
      exact h

theorem dropWhile_head_false {p : Char → Bool} {l : List Char} {c : Char} {b2 : List Char}
    (h : l.dropWhile p = c :: b2) : p c = false := by
  induction l with
  | nil => simp [List.dropWhile] at h
  | cons x xs ih =>
    rw [List.dropWhile_cons] at h
    by_cases hx : p x
    · rw [if_pos hx] at h
      exact ih h
    · rw [if_neg hx] at h
      cases h
      exact Bool.of_not_eq_true hx

/-- A non-empty input containing neither line breaks nor `'#'` parses to a
single paragraph holding the whole input as one `Text` inline. -/
theorem parse_plain (a : List Char) (ha : ∀ c ∈ a, c ≠ '\n' ∧ c ≠ '#') (hne : a ≠ []) :
    parse a = .ok [.paragraph ⟨[.text a]⟩] := by
  match a, hne with
  | c :: rest, _ =>
    have hc := ha c (List.mem_cons_self c rest)
    rw [parse, parseLoop_start, if_neg hc.1,
      show c :: rest = (c :: rest) ++ [] from by simp,
      parseLoop_para_accum (c :: rest) ha [] [] [] 1 [], parseLoop_nil]
    simp

/-- In state `ParagraphEndCandidate`, a run of whitespace characters other
than line breaks is absorbed into the holding buffer one by one. -/
theorem parseLoop_cand_accum (w : List Char) (hw : ∀ c ∈ w, rustIsWhitespace c ∧ c ≠ '\n')
    (pt ct : List Char) (acc : List Block) (ln : Nat) (rest : List Char) :
    parseLoop .paragraphEndCandidate pt ct acc ln (w ++ rest) =
      parseLoop .paragraphEndCandidate pt (ct ++ w) acc ln rest := by
  induction w generalizing ct with
  | nil => simp
  | cons c w ih =>
    have hc := hw c (List.mem_cons_self c w)
    rw [List.cons_append, parseLoop_cand_ws pt ct acc ln c (w ++ rest) hc.2 hc.1,
      ih (fun x hx => hw x (List.mem_cons_of_mem c hx)) (ct ++ [c])]
    simp

theorem parse_eq_paraLoop (c : Char) (rest : List Char) :
    parse (c :: rest) =
      parseLoop .paragraph [] [] [] (if c = '\n' then 2 else 1) (c :: rest) := by
  rw [parse, parseLoop_start]

/-- Processing `a ++ "\n\n" ++ b` (with `a`, `b` free of line breaks and
`'#'`) from state `Paragraph`: the second consecutive line break finalizes
the paragraph built from the buffer and `a`; `b` is then accumulated and
flushed at end of input (when non-empty). -/
theorem parseLoop_double_break (a b : List Char) (ha : ∀ c ∈ a, c ≠ '\n' ∧ c ≠ '#')
    (hb : ∀ c ∈ b, c ≠ '\n' ∧ c ≠ '#') (pt ct : List Char) (acc : List Block) (ln : Nat) :
    parseLoop .paragraph pt ct acc ln (a ++ '\n' :: '\n' :: b) =
      .ok ((acc ++ [.paragraph ⟨[.text (pt ++ a)]⟩]) ++
        if b = [] then [] else [.paragraph ⟨[.text b]⟩]) := by
  rw [parseLoop_para_accum a ha, parseLoop_para_nl, parseLoop_cand_nl,
    show b = b ++ [] from by simp, parseLoop_para_accum b hb, parseLoop_nil]
  simp

/-- Processing `a ++ "\n" ++ b` (with `a`, `b` free of line breaks and `'#'`,
and `b` containing at least one non-whitespace character) from state
`Paragraph`: the lone line break does not finalize the paragraph — the
holding buffer and the following text are appended back, so everything ends
up in one paragraph. -/
theorem parseLoop_single_break (a b : List Char) (ha : ∀ c ∈ a, c ≠ '\n' ∧ c ≠ '#')
    (hb : ∀ c ∈ b, c ≠ '\n' ∧ c ≠ '#') (hnb : ∃ x ∈ b, rustIsWhitespace x = false)
    (pt ct : List Char) (acc : List Block) (ln : Nat) :
    parseLoop .paragraph pt ct acc ln (a ++ '\n' :: b) =
      .ok (acc ++ [.paragraph ⟨[.text (pt ++ a ++ ct ++ '\n' :: b)]⟩]) := by
  have hbsplit : b.takeWhile rustIsWhitespace ++ b.dropWhile rustIsWhitespace = b :=
    List.takeWhile_append_dropWhile rustIsWhitespace b
  have hd_ne : b.dropWhile rustIsWhitespace ≠ [] := by
    intro h0
    obtain ⟨x, hx, hxf⟩ := hnb
    rw [← hbsplit, h0, List.append_nil] at hx
    rw [(mem_of_mem_takeWhile hx).2] at hxf
    exact Bool.noConfusion hxf
  obtain ⟨c, b2, hd⟩ : ∃ c b2, b.dropWhile rustIsWhitespace = c :: b2 := by
    match hx : b.dropWhile rustIsWhitespace, hd_ne with
    | c :: b2, _ => exact ⟨c, b2, rfl⟩
  have hcws : rustIsWhitespace c = false := dropWhile_head_false hd
  have hcmem : c ∈ b := mem_of_mem_dropWhile (by rw [hd]; exact List.mem_cons_self c b2)
  have hcnn : c ≠ '\n' := (hb c hcmem).1
  have hwprop : ∀ x ∈ b.takeWhile rustIsWhitespace, rustIsWhitespace x ∧ x ≠ '\n' :=
    fun x hx => ⟨(mem_of_mem_takeWhile hx).2, (hb x (mem_of_mem_takeWhile hx).1).1⟩
  have hb2 : ∀ x ∈ b2, x ≠ '\n' ∧ x ≠ '#' :=
    fun x hx => hb x (mem_of_mem_dropWhile (by rw [hd]; exact List.mem_cons_of_mem c hx))
  rw [parseLoop_para_accum a ha, parseLoop_para_nl,
    show b = b.takeWhile rustIsWhitespace ++ (c :: b2) from by rw [← hd, hbsplit],
    parseLoop_cand_accum _ hwprop,
    parseLoop_cand_other _ _ _ _ c b2 hcnn (by simp [hcws]),
    show b2 = b2 ++ [] from by simp, parseLoop_para_accum b2 hb2, parseLoop_nil]
  simp

theorem takeWhile_all {p : Char → Bool} {t : List Char} (ht : ∀ x ∈ t, p x = true) :
    t.takeWhile p = t ∧ t.dropWhile p = [] := by
  induction t with
  | nil => simp
  | cons c t ih =>
    have hc := ht c (List.mem_cons_self c t)
    rw [List.takeWhile_cons, List.dropWhile_cons, if_pos hc, if_pos hc]
    have := ih (fun x hx => ht x (List.mem_cons_of_mem c hx))
    exact ⟨by rw [this.1], this.2⟩

theorem takeWhile_append_stop {p : Char → Bool} {t : List Char} (ht : ∀ x ∈ t, p x = true)
    {y : Char} (hy : p y = false) (rest : List Char) :
    (t ++ y :: rest).takeWhile p = t ∧ (t ++ y :: rest).dropWhile p = y :: rest := by
  induction t with
  | nil => simp [List.takeWhile_cons, List.dropWhile_cons, hy]
  | cons c t ih =>
    have hc := ht c (List.mem_cons_self c t)
    rw [List.cons_append, List.takeWhile_cons, List.dropWhile_cons, if_pos hc, if_pos hc]
    have := ih (fun x hx => ht x (List.mem_cons_of_mem c hx))
    exact ⟨by rw [this.1], this.2⟩

/-- A heading line in mid-document, followed by a line break and more text:
starting in state `Paragraph` at the `'#'` run, the heading is recognized
and appended without flushing the pending paragraph buffer, and scanning
resumes after the heading's terminating line break. -/
theorem parseLoop_heading_line (k : Nat) (hk1 : 1 ≤ k) (hk6 : k ≤ 6)
    (c : Char) (hch : c ≠ '#') (t : List Char) (ht : ∀ x ∈ t, x ≠ '\n')
    (b pt ct : List Char) (acc : List Block) (ln : Nat) :
    parseLoop .paragraph pt ct acc ln (List.replicate k '#' ++ c :: (t ++ '\n' :: b)) =
      parseLoop .paragraph pt ct (acc ++ [.heading ⟨k, trimChars t⟩]) (ln + 1) b := by
  have hsplit := takeWhile_append_stop (p := (· ≠ '\n'))
    (t := t) (fun x hx => by simpa using ht x hx) (y := '\n') (by simp) b
  have hrep : ∃ kk, k = kk + 1 := ⟨k - 1, by omega⟩
  obtain ⟨kk, rfl⟩ := hrep
  have hph := parse_heading_eq_ok (kk + 1) (c :: (t ++ '\n' :: b)) ln hk1 hk6
    (by simp [hch])
  rw [List.drop_one, List.tail_cons] at hph
  rw [hsplit.1, hsplit.2, List.drop_one, List.tail_cons] at hph
  rw [List.replicate_succ, List.cons_append] at hph
  rw [List.replicate_succ, List.cons_append,
    parseLoop_para_heading_ok pt ct acc ln _ _ _ hph]

/-- A heading line ending the document (no terminating line break). -/
theorem parseLoop_heading_eoi (k : Nat) (hk1 : 1 ≤ k) (hk6 : k ≤ 6)
    (c : Char) (hch : c ≠ '#') (t : List Char) (ht : ∀ x ∈ t, x ≠ '\n')
    (pt ct : List Char) (acc : List Block) (ln : Nat) :
    parseLoop .paragraph pt ct acc ln (List.replicate k '#' ++ c :: t) =
      parseLoop .paragraph pt ct (acc ++ [.heading ⟨k, trimChars t⟩]) (ln + 1) [] := by
  have hsplit := takeWhile_all (p := (· ≠ '\n'))
    (t := t) (fun x hx => by simpa using ht x hx)
  have hrep : ∃ kk, k = kk + 1 := ⟨k - 1, by omega⟩
  obtain ⟨kk, rfl⟩ := hrep
  have hph := parse_heading_eq_ok (kk + 1) (c :: t) ln hk1 hk6 (by simp [hch])
  rw [List.drop_one, List.tail_cons] at hph
  rw [hsplit.1, hsplit.2] at hph
  simp only [List.drop_nil] at hph
  rw [List.replicate_succ, List.cons_append] at hph
  rw [List.replicate_succ, List.cons_append,
    parseLoop_para_heading_ok pt ct acc ln _ _ _ hph]

/-! Claim C6. -/

/-- Claim C6, counterexample to the claim as stated: on the input `"#!x"`
(cursor at a run of one `'#'`), the claim demands that every subsequent
character up to the line break be captured, giving trimmed text `"!x"`;
the recognizer instead discards the `'!'` (the first `next()` call after
the run consumes it) and produces text `"x"`. -/
theorem parse_heading_capture_counterexample :
    parse_heading "#!x".data 1 = (.ok ⟨1, "x".data⟩, []) ∧
    trimChars "!x".data = "!x".data ∧ ("x".data : List Char) ≠ "!x".data :=
  ⟨by decide, by decide, by decide⟩

/-- Claim C6, amended: given a cursor at a contiguous run of `k` `'#'`
characters (`1 ≤ k ≤ 6`), `parse_heading` consumes the run as the level,
consumes and discards one further character when present (`rest.drop 1`),
captures the following characters up to and excluding the next line break,
trims whitespace from the captured text to build the Heading, and advances
the cursor past the heading line including the terminating line break. -/
theorem parse_heading_run_behavior (k : Nat) (rest : List Char) (ln : Nat)
    (hk1 : 1 ≤ k) (hk6 : k ≤ 6) (hrest : rest.head? ≠ some '#') :
    parse_heading (List.replicate k '#' ++ rest) ln =
      (.ok ⟨k, trimChars ((rest.drop 1).takeWhile (· ≠ '\n'))⟩,
       (((rest.drop 1).dropWhile (· ≠ '\n')).drop 1)) :=
  parse_heading_eq_ok k rest ln hk1 hk6 hrest

/-- Witness for `parse_heading_run_behavior` at a concrete input. -/
theorem parse_heading_run_behavior_witness :
    parse_heading (List.replicate 2 '#' ++ "  Hi \nB".data) 5 =
      (.ok ⟨2, "Hi".data⟩, "B".data) :=
  (parse_heading_run_behavior 2 "  Hi \nB".data 5 (by decide) (by decide)
    (by decide)).trans (by decide)

/-! Claim C2. -/

set_option maxRecDepth 10000 in
/-- Claim C2, counterexample to the claim as stated: the heading level is a
`u8`, so a run of 257 `'#'` characters wraps around to level 1 and is
accepted as a valid heading; the resulting level does not equal the exact
run length 257. -/
theorem heading_level_wrap_counterexample :
    parse (List.replicate 257 '#') = .ok [.heading ⟨1, []⟩] ∧ (1 : Nat) ≠ 257 := by
  refine ⟨?_, by decide⟩
  have h257 : (List.replicate 257 '#' : List Char) = '#' :: List.replicate 256 '#' := by
    rw [show (257 : Nat) = 256 + 1 from rfl, List.replicate_succ]
  have hph : parse_heading ('#' :: List.replicate 256 '#') 1 = (.ok ⟨1, []⟩, []) := by
    rw [← h257, show (List.replicate 257 '#' : List Char) = List.replicate 257 '#' ++ [] from
      (List.append_nil _).symm, parse_heading_eq 257 [] 1 (by simp)]
    decide
  rw [h257, parse_eq_paraLoop, if_neg (by decide : ¬('#' = '\n')),
    parseLoop_para_heading_ok [] [] [] 1 _ _ _ hph, parseLoop_nil]
  simp

/-- Claim C2, amended: for a recognized heading the level equals the run
length reduced modulo 256 (`u8` accumulation), which is the exact count for
runs of at most 255; `Heading::new` succeeds exactly for levels 1 through 6
and otherwise fails carrying the offending level, and the parse error
message contains that (reduced) level. -/
theorem heading_level_rules (lvl : Nat) (s : List Char) (k : Nat) (rest : List Char)
    (ln : Nat) (hrest : rest.head? ≠ some '#') :
    (1 ≤ lvl ∧ lvl ≤ 6 → Heading.new lvl s = .ok ⟨lvl, s⟩) ∧
    (¬(1 ≤ lvl ∧ lvl ≤ 6) → Heading.new lvl s = .error ⟨lvl⟩) ∧
    (1 ≤ k ∧ k ≤ 6 → (parse_heading (List.replicate k '#' ++ rest) ln).1 =
      .ok ⟨k, trimChars ((rest.drop 1).takeWhile (· ≠ '\n'))⟩) ∧
    (¬(1 ≤ k % 256 ∧ k % 256 ≤ 6) → (parse_heading (List.replicate k '#' ++ rest) ln).1 =
      .error ⟨invalidMsg (k % 256), ln, 1⟩) := by
  refine ⟨fun h => by rw [Heading.new, if_pos h],
    fun h => by rw [Heading.new, if_neg h],
    fun h => by rw [parse_heading_eq_ok k rest ln h.1 h.2 hrest],
    fun h => by rw [parse_heading_eq_err k rest ln h hrest]⟩

/-- Witness for `heading_level_rules` at concrete inputs: level 3 succeeds,
level 7 fails carrying 7, and a run of 7 `'#'` yields the error message
with the numeric level 7. -/
theorem heading_level_rules_witness :
    Heading.new 3 "x".data = .ok ⟨3, "x".data⟩ ∧
    Heading.new 7 "x".data = .error ⟨7⟩ ∧
    (parse_heading (List.replicate 7 '#' ++ " y".data) 1).1 =
      .error ⟨"Invalid heading level: 7".data, 1, 1⟩ := by
  have h3 := heading_level_rules 3 "x".data 7 " y".data 1 (by decide)
  have h7 := heading_level_rules 7 "x".data 7 " y".data 1 (by decide)
  exact ⟨h3.1 (by decide), h7.2.1 (by decide),
    (h7.2.2.2 (by decide)).trans (by decide)⟩

/-! Claim C3. -/

/-- Claim C3, amended: the only failure path of `parse` is an invalid
heading level: every error has column 1 and carries the message
`"Invalid heading level: n"` for some level `n` outside `1..=6`; the first
such heading aborts the whole parse (the result is a single `Except.error`
and no partial document).  The error's line field is the scanner's internal
line counter, which does not always equal the 1-based line on which the
offending run starts (see the counterexample). -/
theorem parse_error_only_invalid_heading (input : List Char) (e : MarkdownParseError)
    (h : parse input = .error e) :
    e.column = 1 ∧ ∃ n, ¬(1 ≤ n ∧ n ≤ 6) ∧ e.message = invalidMsg n :=
  parseLoop_error_shape .start [] [] [] 1 input e h

/-- Witness for `parse_error_only_invalid_heading`: a run of 7 `'#'` aborts
the parse with column 1 and message containing the level 7. -/
theorem parse_error_only_invalid_heading_witness :
    ∃ e, parse (List.replicate 7 '#') = .error e ∧
      e.column = 1 ∧ ∃ n, ¬(1 ≤ n ∧ n ≤ 6) ∧ e.message = invalidMsg n := by
  have hph : parse_heading (List.replicate 7 '#') 1 = (.error ⟨invalidMsg 7, 1, 1⟩, []) := by
    rw [show List.replicate 7 '#' = List.replicate 7 '#' ++ [] from by simp,
      parse_heading_eq_err 7 [] 1 (by decide) (by simp)]
    decide
  have h : parse (List.replicate 7 '#') = .error ⟨invalidMsg 7, 1, 1⟩ := by
    rw [show List.replicate 7 '#' = '#' :: List.replicate 6 '#' from by
        rw [show (7 : Nat) = 6 + 1 from rfl, List.replicate_succ]] at hph ⊢
    rw [parse_eq_paraLoop, if_neg (by decide : ¬('#' = '\n')),
      parseLoop_para_heading_err [] [] [] 1 _ _ _ hph]
  exact ⟨_, h, parse_error_only_invalid_heading _ _ h⟩

set_option maxRecDepth 4000 in
/-- Claim C3, counterexample to the claim as stated: in the input
`"#\nB\n####### x"` the offending `'#'` run starts on line 3 (two line
breaks precede it), but the reported error line is 2: the line break
consumed and discarded by the first heading's level loop is never counted.
The error's column is 1 as claimed. -/
theorem parse_error_line_counterexample :
    parse "#\nB\n####### x".data = .error ⟨invalidMsg 7, 2, 1⟩ ∧
    List.count '\n' "#\nB\n".data = 2 ∧ (2 : Nat) ≠ 2 + 1 := by
  refine ⟨?_, by decide, by decide⟩
  have h1 : parse_heading "#\nB\n####### x".data 1 =
      (.ok ⟨1, "B".data⟩, "####### x".data) := by decide
  have h2 : parse_heading "####### x".data 2 = (.error ⟨invalidMsg 7, 2, 1⟩, []) := by decide
  simp [parse, parseLoop, h1, h2]

/-! Claim C7. -/

/-- Claim C7: for paragraph text `a`, `b` free of line breaks and `'#'`,
two consecutive line breaks always terminate the current paragraph and
start a new one, while a single line break never does — the text before
and after a lone line break (possibly with intervening whitespace, which
is part of `b`) ends up in the same Paragraph block.  The third conjunct
states the termination fully generally: in any reachable configuration, a
second line break seen in state `ParagraphEndCandidate` finalizes the
current paragraph and starts a new one. -/
theorem blank_line_separates_paragraphs (a b : List Char)
    (ha : ∀ c ∈ a, c ≠ '\n' ∧ c ≠ '#') (hb : ∀ c ∈ b, c ≠ '\n' ∧ c ≠ '#') :
    (b ≠ [] → parse (a ++ '\n' :: '\n' :: b) =
      .ok [.paragraph ⟨[.text a]⟩, .paragraph ⟨[.text b]⟩]) ∧
    ((∃ x ∈ b, rustIsWhitespace x = false) → parse (a ++ '\n' :: b) =
      .ok [.paragraph ⟨[.text (a ++ '\n' :: b)]⟩]) ∧
    (∀ pt ct acc ln rest, parseLoop .paragraphEndCandidate pt ct acc ln ('\n' :: rest) =
      parseLoop .paragraph [] [] (acc ++ [.paragraph ⟨[.text pt]⟩]) (ln + 1) rest) := by
  refine ⟨?_, ?_, parseLoop_cand_nl⟩
  · intro hbne
    cases a with
    | nil =>
      rw [List.nil_append, parse_eq_paraLoop, if_pos rfl,
        show ('\n' :: '\n' :: b : List Char) = [] ++ '\n' :: '\n' :: b from rfl,
        parseLoop_double_break [] b ha hb [] [] [] 2]
      simp [hbne]
    | cons c a2 =>
      have hc := ha c (List.mem_cons_self c a2)
      rw [List.cons_append, parse_eq_paraLoop, if_neg hc.1, ← List.cons_append,
        parseLoop_double_break (c :: a2) b ha hb [] [] [] 1]
      simp [hbne]
  · intro hnb
    cases a with
    | nil =>
      rw [List.nil_append, parse_eq_paraLoop, if_pos rfl,
        show ('\n' :: b : List Char) = [] ++ '\n' :: b from rfl,
        parseLoop_single_break [] b ha hb hnb [] [] [] 2]
      simp
    | cons c a2 =>
      have hc := ha c (List.mem_cons_self c a2)
      rw [List.cons_append, parse_eq_paraLoop, if_neg hc.1, ← List.cons_append,
        parseLoop_single_break (c :: a2) b ha hb hnb [] [] [] 1]
      simp

/-- Witness for `blank_line_separates_paragraphs` on concrete inputs
`"ab\n\ncd"` (two paragraphs) and `"ab\ncd"` (one paragraph). -/
theorem blank_line_separates_paragraphs_witness :
    parse "ab\n\ncd".data =
      .ok [.paragraph ⟨[.text "ab".data]⟩, .paragraph ⟨[.text "cd".data]⟩] ∧
    parse "ab\ncd".data = .ok [.paragraph ⟨[.text "ab\ncd".data]⟩] := by
  have h := blank_line_separates_paragraphs "ab".data "cd".data (by decide) (by decide)
  exact ⟨h.1 (by decide), h.2.1 ⟨'c', by decide, by decide⟩⟩

/-! Claim C8. -/

/-- Claim C8: when input is exhausted (in any state, with any buffers), a
non-empty paragraph text buffer is flushed as a final trailing Paragraph
block and an empty buffer adds nothing; in particular a document that is a
single line of plain text with no trailing blank line still produces its
paragraph. -/
theorem trailing_paragraph_flushed :
    (∀ st pt ct acc ln, parseLoop st pt ct acc ln [] =
      .ok (acc ++ if pt = [] then [] else [.paragraph ⟨[.text pt]⟩])) ∧
    (∀ a, (∀ c ∈ a, c ≠ '\n' ∧ c ≠ '#') → a ≠ [] →
      parse a = .ok [.paragraph ⟨[.text a]⟩]) :=
  ⟨parseLoop_nil, parse_plain⟩

/-- Witness for `trailing_paragraph_flushed` on the concrete input `"abc"`. -/
theorem trailing_paragraph_flushed_witness :
    parse "abc".data = .ok [.paragraph ⟨[.text "abc".data]⟩] :=
  trailing_paragraph_flushed.2 "abc".data (by decide) (by decide)

/-! Claim C10. -/

/-- Claim C10: a `'#'` seen in the Paragraph state right after pending
paragraph text `a` (on the same line) triggers the heading recognizer
without flushing `a`: the Heading is appended first, `a` stays buffered,
is merged with any paragraph text `b` following the heading line, and the
resulting Paragraph appears after the Heading.  The character `c`
immediately following the run is consumed by the recognizer and `t` (up
to the line break) becomes the heading text. -/
theorem heading_mid_paragraph (a : List Char) (ha : ∀ x ∈ a, x ≠ '\n' ∧ x ≠ '#')
    (hane : a ≠ []) (k : Nat) (hk1 : 1 ≤ k) (hk6 : k ≤ 6)
    (c : Char) (hch : c ≠ '#') (t : List Char) (ht : ∀ x ∈ t, x ≠ '\n')
    (b : List Char) (hb : ∀ x ∈ b, x ≠ '\n' ∧ x ≠ '#') :
    parse (a ++ List.replicate k '#' ++ c :: t) =
      .ok [.heading ⟨k, trimChars t⟩, .paragraph ⟨[.text a]⟩] ∧
    (b ≠ [] → parse (a ++ List.replicate k '#' ++ c :: (t ++ '\n' :: b)) =
      .ok [.heading ⟨k, trimChars t⟩, .paragraph ⟨[.text (a ++ b)]⟩]) := by
  match a, hane with
  | a0 :: a2, _ =>
    have hc0 := ha a0 (List.mem_cons_self a0 a2)
    constructor
    · rw [List.append_assoc, List.cons_append, parse_eq_paraLoop, if_neg hc0.1,
        ← List.cons_append, parseLoop_para_accum (a0 :: a2) ha,
        parseLoop_heading_eoi k hk1 hk6 c hch t ht, parseLoop_nil]
      simp
    · intro hbne
      rw [List.append_assoc, List.cons_append, parse_eq_paraLoop, if_neg hc0.1,
        ← List.cons_append, parseLoop_para_accum (a0 :: a2) ha,
        parseLoop_heading_line k hk1 hk6 c hch t ht,
        show b = b ++ [] from by simp, parseLoop_para_accum b hb, parseLoop_nil]
      simp [hbne]

/-- Witness for `heading_mid_paragraph`: the input `"ab#cd"` yields a
Heading (level 1, text `"d"` — the `'c'` is discarded by the recognizer)
followed by a Paragraph containing `"ab"`; with a following line `"e"`,
the pending text and `"e"` merge into one paragraph after the heading. -/
theorem heading_mid_paragraph_witness :
    parse "ab#cd".data = .ok [.heading ⟨1, "d".data⟩, .paragraph ⟨[.text "ab".data]⟩] ∧
    parse "ab#cd\ne".data =
      .ok [.heading ⟨1, "d".data⟩, .paragraph ⟨[.text "abe".data]⟩] := by
  have h := heading_mid_paragraph "ab".data (by decide) (by decide) 1 (by decide)
    (by decide) 'c' (by decide) "d".data (by decide) "e".data (by decide)
  exact ⟨h.1, h.2 (by decide)⟩

/-! Claim C1. -/

/-- Claim C1, counterexample to the claim as stated: on input `"[a](b)"`
the finalized paragraph's inlines are `[Text "[a](b)"]`, while running the
inline scanner on the accumulated paragraph text yields a `Link` inline;
the two disagree, and in particular the paragraph built from text that
contains full link syntax contains no `Link` inline. -/
theorem inline_scanner_not_invoked_counterexample :
    parse "[a](b)".data = .ok [.paragraph ⟨[.text "[a](b)".data]⟩] ∧
    parse_inlines "[a](b)".data = some [.link [.text "a".data] "b".data none] ∧
    ∀ t, Inline.link [.text "a".data] "b".data none ≠ .text t := by
  refine ⟨parse_plain _ (by decide) (by decide), ?_, fun t h => nomatch h⟩
  rw [show ("[a](b)".data : List Char) = '[' :: "a](b)".data from rfl,
    parse_inlines_match '[' "a](b)".data (.link [.text "a".data] "b".data none) []
      (Or.inr rfl) rfl, parse_inlines_nil]
  rfl

/-- Claim C1, amended: the block scanner never invokes the inline scanner;
every Paragraph block appended to the document by `parse` has as its
inlines exactly the one-element sequence `[Text t]` where `t` is the
accumulated paragraph text buffer, regardless of any link or image syntax
inside `t`. -/
theorem parse_paragraphs_are_raw_text (input : List Char) (doc : Document)
    (h : parse input = .ok doc) :
    ∀ p, Block.paragraph p ∈ doc → ∃ t, p.inlines = [Inline.text t] :=
  parseLoop_ok_shape .start [] [] [] 1 input doc (by intro p hp; simp at hp) h

/-- Witness for `parse_paragraphs_are_raw_text` at the concrete input
`"[a](b)"`. -/
theorem parse_paragraphs_are_raw_text_witness :
    ∃ t, (⟨[.text "[a](b)".data]⟩ : Paragraph).inlines = [.text t] := by
  have hp : parse "[a](b)".data = .ok [.paragraph ⟨[.text "[a](b)".data]⟩] :=
    parse_plain _ (by decide) (by decide)
  exact parse_paragraphs_are_raw_text "[a](b)".data _ hp ⟨[.text "[a](b)".data]⟩ (by simp)

/-! Claim C9. -/

/-- Claim C9, counterexample to the claim as stated: the exposed
inline-parsing constructor `Paragraph::parse` applied to empty text yields
a paragraph whose inline sequence has length zero (`parse_inlines ""` is
the empty vector), contradicting the at-least-one-inline invariant. -/
theorem paragraph_parse_empty_counterexample :
    Paragraph.parse [] = some ⟨[]⟩ ∧ (⟨[]⟩ : Paragraph).inlines.length = 0 := by
  constructor
  · rw [Paragraph.parse, parse_inlines_nil]
    rfl
  · rfl

/-- Claim C9, amended: every Paragraph block finalized by the block scanner
`parse` contains exactly one inline element (so never zero); but the
invariant does not extend to `Paragraph::parse`, which on empty input
builds a paragraph with an empty inline sequence (see the counterexample). -/
theorem parse_paragraph_inlines_length_one (input : List Char) (doc : Document)
    (h : parse input = .ok doc) :
    ∀ p, Block.paragraph p ∈ doc → p.inlines.length = 1 := by
  intro p hp
  obtain ⟨t, ht⟩ := parseLoop_ok_shape .start [] [] [] 1 input doc
    (by intro q hq; simp at hq) h p hp
  rw [ht]
  rfl

/-- Witness for `parse_paragraph_inlines_length_one` at the concrete
input `"ab"`. -/
theorem parse_paragraph_inlines_length_one_witness :
    (⟨[.text "ab".data]⟩ : Paragraph).inlines.length = 1 := by
  have hp : parse "ab".data = .ok [.paragraph ⟨[.text "ab".data]⟩] :=
    parse_plain _ (by decide) (by decide)
  exact parse_paragraph_inlines_length_one "ab".data _ hp _ (by simp)

/-! Claim C5. -/

/-- Claim C5: the inline scanner is not total.  At any scan position
holding a character that occupies more than one UTF-8 byte (here `'é'`,
U+00E9, two bytes) the Rust code evaluates `input[i + 1..]`, a string
slice at a byte index that is not a character boundary, and panics; the
embedding returns `none` there.  This contradicts the claim that the
scanner never fails, so the span-coverage law cannot hold for every input
either. -/
theorem inline_scanner_panics_on_multibyte :
    parse_inlines [Char.ofNat 0xE9] = none ∧ (Char.ofNat 0xE9).utf8Size = 2 :=
  ⟨parse_inlines_panic (Char.ofNat 0xE9) [] (by decide) (by decide), by decide⟩

/-! Claim C4: behaviour of the url/title split on a fully matched link or
image. -/

theorem splitInside_space (inside : List Char) (hsp : ' ' ∈ inside) :
    splitInside inside = (inside.takeWhile (· ≠ ' '),
      if ((inside.dropWhile (· ≠ ' ')).dropWhile rustIsWhitespace).head? = some '"' ∧
          ((inside.dropWhile (· ≠ ' ')).dropWhile rustIsWhitespace).getLast? = some '"' ∧
          2 ≤ ((inside.dropWhile (· ≠ ' ')).dropWhile rustIsWhitespace).length then
        some (((inside.dropWhile (· ≠ ' ')).dropWhile rustIsWhitespace).drop 1).dropLast
      else none) := by
  have hne : inside.dropWhile (· ≠ ' ') ≠ [] := by
    intro h0
    have hsplit := List.takeWhile_append_dropWhile (· ≠ ' ') inside
    rw [h0, List.append_nil] at hsplit
    rw [← hsplit] at hsp
    have := (mem_of_mem_takeWhile hsp).2
    simp at this
  match hd : inside.dropWhile (· ≠ ' ') with
  | [] => exact absurd hd hne
  | c :: b2 =>
    rw [splitInside, hd]

theorem tryMatch_link (label inside rest2 : List Char) (hl : ']' ∉ label)
    (hi : ')' ∉ inside) :
    tryMatch ('[' :: (label ++ ']' :: '(' :: (inside ++ ')' :: rest2))) =
      some (.link [.text label] (splitInside inside).1 (splitInside inside).2, rest2) := by
  have hLab := takeWhile_append_stop (p := (· ≠ ']'))
    (t := label) (fun x hx => decide_eq_true (fun he => hl (he ▸ hx)))
    (y := ']') (by simp) ('(' :: (inside ++ ')' :: rest2))
  have hIns := takeWhile_append_stop (p := (· ≠ ')'))
    (t := inside) (fun x hx => decide_eq_true (fun he => hi (he ▸ hx)))
    (y := ')') (by simp) rest2
  simp only [ne_eq, decide_not] at hLab hIns
  rw [tryMatch]
  simp [hLab.1, hLab.2, hIns.1, hIns.2]

theorem tryMatch_image (label inside rest2 : List Char) (hl : ']' ∉ label)
    (hi : ')' ∉ inside) :
    tryMatch ('!' :: '[' :: (label ++ ']' :: '(' :: (inside ++ ')' :: rest2))) =
      some (.image [.text label] (splitInside inside).1 (splitInside inside).2, rest2) := by
  have hLab := takeWhile_append_stop (p := (· ≠ ']'))
    (t := label) (fun x hx => decide_eq_true (fun he => hl (he ▸ hx)))
    (y := ']') (by simp) ('(' :: (inside ++ ')' :: rest2))
  have hIns := takeWhile_append_stop (p := (· ≠ ')'))
    (t := inside) (fun x hx => decide_eq_true (fun he => hi (he ▸ hx)))
    (y := ')') (by simp) rest2
  simp only [ne_eq, decide_not] at hLab hIns
  rw [tryMatch]
  simp [hLab.1, hLab.2, hIns.1, hIns.2]

/-- Claim C4, counterexample to the claim as stated: in `"[a](b c)"` the
parenthesized content `"b c"` contains a space and the remainder `"c"` is
not a quoted title; the claim says the whole content `"b c"` is then
treated as part of the destination, but the scanner records url `"b"` (the
part before the first space) and silently discards `"c"`. -/
theorem link_url_discard_counterexample :
    parse_inlines "[a](b c)".data = some [.link [.text "a".data] "b".data none] ∧
    ("b".data : List Char) ≠ "b c".data := by
  refine ⟨?_, by decide⟩
  rw [show ("[a](b c)".data : List Char) = '[' :: "a](b c)".data from rfl,
    parse_inlines_match '[' "a](b c)".data (.link [.text "a".data] "b".data none) []
      (Or.inr rfl) rfl, parse_inlines_nil]
  rfl

/-- Claim C4, amended: when the inline scanner fully matches
`[label](inside)` or `![label](inside)` and `inside` contains a space, the
url is the part of `inside` before the first space; the remainder starting
at that space is `trim_start`-ed, and becomes the title with the quotes
stripped exactly when it begins and ends with `'"'` and has length at
least 2; otherwise no title is recorded and the remainder after the first
space is discarded — the url is still only the part before the first
space, not the whole parenthesized content. -/
theorem link_destination_split (label inside : List Char)
    (hl : ']' ∉ label) (hi : ')' ∉ inside) (hsp : ' ' ∈ inside) :
    parse_inlines ('[' :: (label ++ ']' :: '(' :: (inside ++ [')']))) =
      some [.link [.text label] (inside.takeWhile (· ≠ ' '))
        (if ((inside.dropWhile (· ≠ ' ')).dropWhile rustIsWhitespace).head? = some '"' ∧
            ((inside.dropWhile (· ≠ ' ')).dropWhile rustIsWhitespace).getLast? = some '"' ∧
            2 ≤ ((inside.dropWhile (· ≠ ' ')).dropWhile rustIsWhitespace).length then
          some (((inside.dropWhile (· ≠ ' ')).dropWhile rustIsWhitespace).drop 1).dropLast
        else none)] ∧
    parse_inlines ('!' :: '[' :: (label ++ ']' :: '(' :: (inside ++ [')']))) =
      some [.image [.text label] (inside.takeWhile (· ≠ ' '))
        (if ((inside.dropWhile (· ≠ ' ')).dropWhile rustIsWhitespace).head? = some '"' ∧
            ((inside.dropWhile (· ≠ ' ')).dropWhile rustIsWhitespace).getLast? = some '"' ∧
            2 ≤ ((inside.dropWhile (· ≠ ' ')).dropWhile rustIsWhitespace).length then
          some (((inside.dropWhile (· ≠ ' ')).dropWhile rustIsWhitespace).drop 1).dropLast
        else none)] := by
  constructor
  · rw [parse_inlines_match '[' (label ++ ']' :: '(' :: (inside ++ [')']))
        (.link [.text label] (splitInside inside).1 (splitInside inside).2) []
        (Or.inr rfl) (tryMatch_link label inside [] hl hi), parse_inlines_nil]
    simp [splitInside_space inside hsp]
  · rw [parse_inlines_match '!' ('[' :: (label ++ ']' :: '(' :: (inside ++ [')'])))
        (.image [.text label] (splitInside inside).1 (splitInside inside).2) []
        (Or.inl rfl) (tryMatch_image label inside [] hl hi), parse_inlines_nil]
    simp [splitInside_space inside hsp]

/-- Witness for `link_destination_split` on the concrete inputs
`"[a](b \"T\")"` (quoted remainder becomes the title) and `"![i](u x)"`
(unquoted remainder discarded, no title). -/
theorem link_destination_split_witness :
    parse_inlines "[a](b \"T\")".data =
      some [.link [.text "a".data] "b".data (some "T".data)] ∧
    parse_inlines "![i](u x)".data =
      some [.image [.text "i".data] "u".data none] := by
  have h1 := link_destination_split "a".data "b \"T\"".data
    (by decide) (by decide) (by decide)
  have h2 := link_destination_split "i".data "u x".data
    (by decide) (by decide) (by decide)
  exact ⟨h1.1.trans (by rfl), h2.2.trans (by rfl)⟩

end MarkdownLib
